import Mathlib

/-!
Verification development for the quote store reconciliation engine of the
Dynamic Quote Generator (src/dom-manipulation/script.js, with the variant
normalizer `normalizeImported` of src/unnamed/part_001).

The in-memory collection is a JS array of quote records; we embed it as
`List Quote`.  Ad-hoc id/timestamp generators (`Date.now()`,
`Math.random()`) are modelled as explicit parameters.  JS `Map` objects
keyed by string are modelled as functions `String → Option Quote`, with
`new Map(entries)` building the map left to right so that a later entry
overwrites an earlier one with the same key, exactly as in JS.
-/

/-- Embeds the quote record shape used throughout script.js:
`{ id, text, category, source, version, lastUpdated }`. -/
structure Quote where
  id : String
  text : String
  category : String
  source : String
  version : Int
  lastUpdated : Nat
deriving DecidableEq, Repr

/-- Embeds one element of an untrusted parsed JSON array as consumed by
`normalizeImported` / the inline normalization of `importFromJsonFile`.
A field is `none` when it is absent or not of the tested type
(`typeof x.text === "string"` etc.); string fields may be present but
empty, which is `some ""` and is falsy in JS. -/
structure RawItem where
  id : Option String
  text : Option String
  category : Option String
  source : Option String
  version : Option Int
  lastUpdated : Option Nat
deriving DecidableEq, Repr

/-- Model of the JS builtin `String.prototype.trim()`: drops whitespace
characters from both ends of the string. -/
def jsTrim (s : String) : String :=
  ⟨((s.data.dropWhile Char.isWhitespace).reverse.dropWhile Char.isWhitespace).reverse⟩

/-- Model of the JS builtin `String.prototype.toLowerCase()`: lowercases
every character. -/
def jsToLowerCase (s : String) : String :=
  ⟨s.data.map Char.toLower⟩

/-- Embeds the per-element work of `normalizeImported` (part_001 lines
215-229, identically inlined in script.js lines 218-227): a `none` input
models a falsy array element (`if (!item ...) continue`), and an element
whose `text` or `category` is not a string is dropped; otherwise the
record is built with `text.trim()`, `category.trim().toLowerCase()`, the
JS falsy-fallbacks `item.id || genId`, `item.source || "import"`, and the
numeric-typed fallbacks for `version` and `lastUpdated`. -/
def normItem (genId : String) (genTs : Nat) : Option RawItem → Option Quote
  | none => none
  | some x =>
    match x.text, x.category with
    | some t, some c =>
      some {
        id := match x.id with
              | some s => if s = "" then genId else s
              | none => genId
        text := jsTrim t
        category := jsToLowerCase (jsTrim c)
        source := match x.source with
                  | some s => if s = "" then "import" else s
                  | none => "import"
        version := x.version.getD 1
        lastUpdated := x.lastUpdated.getD genTs }
    | _, _ => none

/-- Embeds `normalizeImported(arr)`: each surviving element obtains its own
generated id and timestamp, modelled by indexing the generators with the
element's position in the input array. -/
def normalizeImported (genId : Nat → String) (genTs : Nat → Nat)
    (arr : List (Option RawItem)) : List Quote :=
  arr.enum.filterMap fun p => normItem (genId p.1) (genTs p.1) p.2

/-- Embeds the merge loop of `importFromJsonFile` (script.js lines
229-240): `seenId` starts as the set of existing ids, an incoming record
is skipped when its id is already seen or some current record has the
same `(text, category)` pair, and is otherwise appended (updating
`seenId`).  Returns `(quotes, added, skipped)`. -/
def importMergeAux : List Quote → List String → List Quote → List Quote × Nat × Nat
  | qs, _, [] => (qs, 0, 0)
  | qs, seen, q :: rest =>
    if q.id ∈ seen ∨ ∃ x ∈ qs, x.text = q.text ∧ x.category = q.category then
      let r := importMergeAux qs seen rest
      (r.1, r.2.1, r.2.2 + 1)
    else
      let r := importMergeAux (qs ++ [q]) (q.id :: seen) rest
      (r.1, r.2.1 + 1, r.2.2)

/-- The import merge with `seenId` initialized from the existing
collection, as in script.js line 229. -/
def importMerge (existing incoming : List Quote) : List Quote × Nat × Nat :=
  importMergeAux existing (existing.map Quote.id) incoming

/-- Pointwise update of a string-keyed map, the model of `Map.set`. -/
def updFn (f : String → Option Quote) (k : String) (v : Quote) : String → Option Quote :=
  fun x => if x = k then some v else f x

/-- Embeds `new Map(quotes.map(q => [q.id, q]))` (script.js line 308):
entries are inserted left to right, a later duplicate key overwriting an
earlier one. -/
def buildById (qs : List Quote) : String → Option Quote :=
  qs.foldl (fun f q => updFn f q.id q) (fun _ => none)

/-- The mutable state of the `mergeServerQuotes` loop: the `quotes`
array, the `localById` map, and the two counters. -/
structure SyncState where
  quotes : List Quote
  byId : String → Option Quote
  added : Nat
  replaced : Nat

/-- Embeds one iteration of the loop of `mergeServerQuotes` (script.js
lines 311-326): an incoming record whose id is absent from `localById`
is appended (`added++`); one whose id is present and whose `text` or
`category` differs from the stored record overwrites the record at
`quotes.findIndex(q => q.id === s.id)` (`replaced++`); otherwise the
record is left alone.  `List.set` at `findIdx` is exactly the JS
`if (idx >= 0) quotes[idx] = s`, since a failed `findIdx` returns the
length and `List.set` out of range is the identity. -/
def syncStep (st : SyncState) (s : Quote) : SyncState :=
  match st.byId s.id with
  | none =>
    ⟨st.quotes ++ [s], updFn st.byId s.id s, st.added + 1, st.replaced⟩
  | some l =>
    if l.text ≠ s.text ∨ l.category ≠ s.category then
      ⟨st.quotes.set (st.quotes.findIdx fun q => q.id == s.id) s,
       updFn st.byId s.id s, st.added, st.replaced + 1⟩
    else st

/-- Embeds `mergeServerQuotes(serverQuotes)` (script.js lines 307-328):
returns `(quotes, added, replaced)`. -/
def mergeServerQuotes (existing serverQuotes : List Quote) : List Quote × Nat × Nat :=
  let st := serverQuotes.foldl syncStep ⟨existing, buildById existing, 0, 0⟩
  (st.quotes, st.added, st.replaced)

/-- Lookup of the first record with the given id, the specification-side
reading of `localById.get` for collections with unique ids. -/
def findById (qs : List Quote) (k : String) : Option Quote :=
  qs.find? fun q => q.id == k

/-- The loop invariant of `mergeServerQuotes`: ids are pairwise distinct
and the `localById` map agrees with lookup in the array. -/
def SyncInv (st : SyncState) : Prop :=
  (st.quotes.map Quote.id).Nodup ∧ ∀ k, st.byId k = findById st.quotes k

/-- The collection already holds the incoming record's content under the
incoming record's id, which makes the sync step a no-op. -/
def ContentOK (qs : List Quote) (s : Quote) : Prop :=
  ∃ q, findById qs s.id = some q ∧ q.text = s.text ∧ q.category = s.category

/-- Embeds `addQuote` (script.js lines 158-192) restricted to its effect
on the collection: the two form values are trimmed (the category also
lowercased), an empty text or category aborts with a warning, and
otherwise a record with the generated id, source `"local"`, version 1
and the current timestamp is appended. -/
def addQuote (qs : List Quote) (rawText rawCat genId : String) (now : Nat) : List Quote :=
  let text := jsTrim rawText
  let category := jsToLowerCase (jsTrim rawCat)
  if text = "" ∨ category = "" then qs
  else qs ++ [⟨genId, text, category, "local", 1, now⟩]

/-- Embeds `SEED_QUOTES` (script.js lines 20-25); each seed record's
`lastUpdated` is `Date.now()` at script load, passed in as `now`. -/
def SEED_QUOTES (now : Nat) : List Quote :=
  [⟨"seed-1", "The only way to do great work is to love what you do.", "inspiration", "seed", 1, now⟩,
   ⟨"seed-2", "Simplicity is the soul of efficiency.", "productivity", "seed", 1, now⟩,
   ⟨"seed-3", "What we think, we become.", "mindset", "seed", 1, now⟩,
   ⟨"seed-4", "Talk is cheap. Show me the code.", "programming", "seed", 1, now⟩]

/-- Abstraction of the durable-store slot `dqg.quotes` as seen through
`JSON.parse` in `readLocalQuotes`: the key can be missing (or hold an
empty string, falsy in JS), hold text that fails to parse, parse to a
non-array value, or parse to an array.  Array elements are modelled as
quote records, since `readLocalQuotes` performs no per-element shape
check. -/
inductive StoredContent where
  | missing
  | malformed
  | nonArray
  | array (items : List Quote)
deriving DecidableEq, Repr

/-- Embeds `readLocalQuotes` (script.js lines 49-56): every failure path
(missing key, `JSON.parse` throw, non-array value) returns `null`,
modelled as `none`; an array is returned as is. -/
def readLocalQuotes : StoredContent → Option (List Quote)
  | .missing => none
  | .malformed => none
  | .nonArray => none
  | .array items => some items

/-- Embeds `loadInitialData` (script.js lines 255-263): a non-null and
non-empty stored array becomes the collection (`local && local.length`),
anything else is replaced by the seed set. -/
def loadInitialData (now : Nat) (sc : StoredContent) : List Quote :=
  match readLocalQuotes sc with
  | some l => if l.length ≠ 0 then l else SEED_QUOTES now
  | none => SEED_QUOTES now

/-- Embeds `exportToJson` (script.js lines 195-209) up to JSON text:
`JSON.stringify(quotes, null, 2)` writes every field of every record and
parsing the exported file recovers the same array, so the file is
modelled by the raw items it parses back to. -/
def exportRecords (qs : List Quote) : List (Option RawItem) :=
  qs.map fun q =>
    some ⟨some q.id, some q.text, some q.category, some q.source, some q.version, some q.lastUpdated⟩

/-- The externally visible side effects of the merge call sites that the
frame conditions speak about: the durable write (`saveQuotes`) and the
category-set refresh (`populateCategories`). -/
inductive Effect where
  | write
  | refreshCategories
deriving DecidableEq, Repr

/-- Embeds `importFromJsonFile` (script.js lines 212-252) at the
state-and-effect level: a file that fails to parse or is not an array
(`none` here) aborts before the merge with no effect; a parsed array is
normalized and merged, after which `saveQuotes()` and
`populateCategories()` run unconditionally. -/
def importFromJsonFile (qs : List Quote) (genId : Nat → String) (genTs : Nat → Nat) :
    Option (List (Option RawItem)) → List Quote × List Effect
  | none => (qs, [])
  | some arr =>
    let r := importMerge qs (normalizeImported genId genTs arr)
    (r.1, [Effect.write, Effect.refreshCategories])

/-- Embeds the success path of `syncWithServer` (script.js lines 330-350)
at the state-and-effect level: after `mergeServerQuotes`, `saveQuotes()`
and `populateCategories()` run only when `added || replaced` is
truthy. -/
def syncWithServer (qs serverQuotes : List Quote) : List Quote × List Effect :=
  let r := mergeServerQuotes qs serverQuotes
  if r.2.1 ≠ 0 ∨ r.2.2 ≠ 0 then (r.1, [Effect.write, Effect.refreshCategories])
  else (r.1, [])

/-- One mutating operation on the in-memory collection, with the
environment-supplied generator values made explicit. -/
inductive Op where
  | addOp (rawText rawCat genId : String) (now : Nat)
  | importOp (genId : Nat → String) (genTs : Nat → Nat) (arr : List (Option RawItem))
  | syncOp (serverQuotes : List Quote)

/-- Applies one operation to the collection. -/
def applyOp (qs : List Quote) : Op → List Quote
  | .addOp t c g n => addQuote qs t c g n
  | .importOp g gt arr => (importMerge qs (normalizeImported g gt arr)).1
  | .syncOp inc => (mergeServerQuotes qs inc).1

/-- The id-generator contract for `addQuote`: the generated
`local-<timestamp>-<random>` id of each add does not collide with an id
already in the collection at the time of the add.  script.js relies on
the generator alone for this; import and sync need no such assumption
because their merge loops check ids before appending. -/
def FreshAdds : List Quote → List Op → Prop
  | _, [] => True
  | qs, op :: rest =>
    (match op with
     | .addOp _ _ g _ => g ∉ qs.map Quote.id
     | _ => True) ∧ FreshAdds (applyOp qs op) rest

/-! ## Helper lemmas -/

theorem importMergeAux_additive (inc : List Quote) :
    ∀ (qs : List Quote) (seen : List String),
      (∃ t, (importMergeAux qs seen inc).1 = qs ++ t) ∧
      (importMergeAux qs seen inc).1.length
        = qs.length + (importMergeAux qs seen inc).2.1 := by
  induction inc with
  | nil =>
    intro qs seen
    exact ⟨⟨[], by simp [importMergeAux]⟩, by simp [importMergeAux]⟩
  | cons q rest ih =>
    intro qs seen
    by_cases h : q.id ∈ seen ∨ ∃ x ∈ qs, x.text = q.text ∧ x.category = q.category
    · constructor
      · obtain ⟨t, ht⟩ := (ih qs seen).1
        exact ⟨t, by simp [importMergeAux, if_pos h, ht]⟩
      · have h2 := (ih qs seen).2
        simp [importMergeAux, if_pos h, h2]
    · obtain ⟨⟨t, ht⟩, hlen⟩ := ih (qs ++ [q]) (q.id :: seen)
      constructor
      · refine ⟨q :: t, ?_⟩
        simp only [importMergeAux, if_neg h]
        simp [ht]
      · simp only [importMergeAux, if_neg h]
        simp at hlen ⊢
        omega

theorem findById_cons (q : Quote) (l : List Quote) (k : String) :
    findById (q :: l) k = if q.id = k then some q else findById l k := by
  by_cases h : q.id = k
  · simp [findById, List.find?_cons_of_pos, h]
  · have hb : (q.id == k) = false := by simp [h]
    simp [findById, List.find?_cons_of_neg, hb, h]

theorem findById_append (l : List Quote) (s : Quote) (k : String) :
    findById (l ++ [s]) k = (findById l k).or (if s.id = k then some s else none) := by
  simp only [findById, List.find?_append]
  congr 1
  by_cases h : s.id = k
  · simp [List.find?_cons_of_pos, h]
  · have hb : (s.id == k) = false := by simp [h]
    simp [List.find?_cons_of_neg, hb, h]

theorem findById_eq_none (l : List Quote) (k : String) :
    findById l k = none ↔ k ∉ l.map Quote.id := by
  rw [findById, List.find?_eq_none]
  constructor
  · intro h hk
    obtain ⟨x, hx, he⟩ := List.mem_map.mp hk
    exact absurd (by simp [he]) (h x hx)
  · intro h x hx
    intro he
    exact h (List.mem_map.mpr ⟨x, hx, by simpa using he⟩)

theorem buildById_eq_findById (qs : List Quote) (h : (qs.map Quote.id).Nodup) :
    ∀ k, buildById qs k = findById qs k := by
  induction qs using List.reverseRecOn with
  | nil => intro k; rfl
  | append_singleton l a ih =>
    have hsplit : (l.map Quote.id).Nodup ∧ a.id ∉ l.map Quote.id := by
      rw [List.map_append] at h
      rw [List.nodup_append] at h
      refine ⟨h.1, fun hc => ?_⟩
      exact h.2.2 hc (by simp)
    intro k
    have hb : buildById (l ++ [a]) k = updFn (buildById l) a.id a k := by
      simp [buildById, List.foldl_append]
    rw [hb, findById_append]
    by_cases hk : k = a.id
    · have hnone : findById l k = none := by
        rw [hk]; exact (findById_eq_none l a.id).mpr hsplit.2
      rw [hk] at hnone
      simp [updFn, hk, hnone]
    · have hne : ¬(a.id = k) := fun e => hk e.symm
      simp [updFn, hk, hne, ih hsplit.1 k]

theorem set_findIdx_spec (s : Quote) :
    ∀ (l : List Quote) (q0 : Quote), findById l s.id = some q0 →
      ((l.set (l.findIdx fun q => q.id == s.id) s).map Quote.id = l.map Quote.id ∧
       findById (l.set (l.findIdx fun q => q.id == s.id) s) s.id = some s ∧
       ∀ k, k ≠ s.id →
         findById (l.set (l.findIdx fun q => q.id == s.id) s) k = findById l k) := by
  intro l
  induction l with
  | nil =>
    intro q0 hq
    simp [findById] at hq
  | cons h0 tl ih =>
    intro q0 hq
    by_cases hh : h0.id = s.id
    · have hidx : ((h0 :: tl).findIdx fun q => q.id == s.id) = 0 := by
        simp [List.findIdx_cons, hh]
      rw [hidx, List.set_cons_zero]
      refine ⟨by simp [hh], by simp [findById_cons], ?_⟩
      intro k hk
      rw [findById_cons, findById_cons]
      have h1 : ¬(s.id = k) := fun e => hk e.symm
      have h2 : ¬(h0.id = k) := fun e => hk (hh ▸ e).symm
      simp [h1, h2]
    · have hp : (h0.id == s.id) = false := by simp [hh]
      have hidx : ((h0 :: tl).findIdx fun q => q.id == s.id)
          = (tl.findIdx fun q => q.id == s.id) + 1 := by
        simp [List.findIdx_cons, hp]
      have hq' : findById tl s.id = some q0 := by
        rw [findById_cons] at hq
        simpa [hh] using hq
      obtain ⟨h1, h2, h3⟩ := ih q0 hq'
      rw [hidx, List.set_cons_succ]
      refine ⟨by simp [h1], ?_, ?_⟩
      · rw [findById_cons]
        simp [hh, h2]
      · intro k hk
        rw [findById_cons, findById_cons]
        by_cases hk0 : h0.id = k
        · simp [hk0]
        · simp [hk0, h3 k hk]

theorem syncStep_inv (st : SyncState) (s : Quote) (h : SyncInv st) :
    SyncInv (syncStep st s) := by
  obtain ⟨hn, ha⟩ := h
  cases hb : st.byId s.id with
  | none =>
    have hout : s.id ∉ st.quotes.map Quote.id :=
      (findById_eq_none st.quotes s.id).mp ((ha s.id).symm.trans hb)
    constructor
    · simp only [syncStep, hb]
      rw [List.map_append, List.nodup_append]
      refine ⟨hn, by simp, ?_⟩
      intro x hx hx'
      simp at hx'
      exact hout (hx' ▸ hx)
    · intro k
      simp only [syncStep, hb]
      rw [findById_append]
      unfold updFn
      by_cases hk : k = s.id
      · have hnone : findById st.quotes s.id = none := (ha s.id).symm.trans hb
        simp [hk, hnone]
      · have hne : ¬(s.id = k) := fun e => hk e.symm
        simp [hk, hne, ha k]
  | some l =>
    by_cases hd : l.text ≠ s.text ∨ l.category ≠ s.category
    · have hfind : findById st.quotes s.id = some l := (ha s.id).symm.trans hb
      obtain ⟨hmap, hself, hframe⟩ := set_findIdx_spec s st.quotes l hfind
      constructor
      · simp only [syncStep, hb, if_pos hd]
        rw [hmap]
        exact hn
      · intro k
        simp only [syncStep, hb, if_pos hd]
        unfold updFn
        by_cases hk : k = s.id
        · rw [hk]
          simp [hself]
        · simp [hk, hframe k hk, ha k]
    · simp only [syncStep, hb, if_neg hd]
      exact ⟨hn, ha⟩

theorem syncStep_content (st : SyncState) (s : Quote) (h : SyncInv st) :
    ContentOK (syncStep st s).quotes s := by
  obtain ⟨hn, ha⟩ := h
  cases hb : st.byId s.id with
  | none =>
    refine ⟨s, ?_, rfl, rfl⟩
    simp only [syncStep, hb]
    rw [findById_append, (ha s.id).symm.trans hb]
    simp
  | some l =>
    by_cases hd : l.text ≠ s.text ∨ l.category ≠ s.category
    · have hfind : findById st.quotes s.id = some l := (ha s.id).symm.trans hb
      obtain ⟨_, hself, _⟩ := set_findIdx_spec s st.quotes l hfind
      refine ⟨s, ?_, rfl, rfl⟩
      simp only [syncStep, hb, if_pos hd]
      exact hself
    · have hd' : l.text = s.text ∧ l.category = s.category := by
        rcases not_or.mp hd with ⟨h1, h2⟩
        exact ⟨not_not.mp h1, not_not.mp h2⟩
      refine ⟨l, ?_, hd'.1, hd'.2⟩
      simp only [syncStep, hb, if_neg hd]
      exact (ha s.id).symm.trans hb

theorem syncStep_noop (st : SyncState) (s : Quote) (h : SyncInv st)
    (hc : ContentOK st.quotes s) : syncStep st s = st := by
  obtain ⟨_, ha⟩ := h
  obtain ⟨q, hq, ht, hcat⟩ := hc
  have hb : st.byId s.id = some q := (ha s.id).trans hq
  simp [syncStep, hb, ht, hcat]

theorem syncStep_frame (st : SyncState) (s : Quote) (k : String) (h : SyncInv st)
    (hk : k ≠ s.id) : findById (syncStep st s).quotes k = findById st.quotes k := by
  obtain ⟨hn, ha⟩ := h
  cases hb : st.byId s.id with
  | none =>
    simp only [syncStep, hb]
    rw [findById_append]
    have hne : ¬(s.id = k) := fun e => hk e.symm
    simp [hne]
  | some l =>
    by_cases hd : l.text ≠ s.text ∨ l.category ≠ s.category
    · have hfind : findById st.quotes s.id = some l := (ha s.id).symm.trans hb
      obtain ⟨_, _, hframe⟩ := set_findIdx_spec s st.quotes l hfind
      simp only [syncStep, hb, if_pos hd]
      exact hframe k hk
    · simp only [syncStep, hb, if_neg hd]

theorem foldl_syncStep_inv (inc : List Quote) :
    ∀ st : SyncState, SyncInv st → SyncInv (inc.foldl syncStep st) := by
  induction inc with
  | nil => intro st h; exact h
  | cons s rest ih =>
    intro st h
    rw [List.foldl_cons]
    exact ih _ (syncStep_inv st s h)

theorem foldl_syncStep_frame (inc : List Quote) :
    ∀ (st : SyncState) (k : String), SyncInv st → k ∉ inc.map Quote.id →
      findById (inc.foldl syncStep st).quotes k = findById st.quotes k := by
  induction inc with
  | nil => intro st k _ _; rfl
  | cons s rest ih =>
    intro st k h hk
    rw [List.map_cons, List.mem_cons, not_or] at hk
    rw [List.foldl_cons]
    exact (ih (syncStep st s) k (syncStep_inv st s h) hk.2).trans
      (syncStep_frame st s k h hk.1)

theorem foldl_syncStep_post (inc : List Quote) :
    ∀ st : SyncState, SyncInv st → (inc.map Quote.id).Nodup →
      ∀ s ∈ inc, ContentOK (inc.foldl syncStep st).quotes s := by
  induction inc with
  | nil => intro st _ _ s hs; cases hs
  | cons s0 rest ih =>
    intro st hinv hnd s hs
    have hinv1 : SyncInv (syncStep st s0) := syncStep_inv st s0 hinv
    rw [List.map_cons, List.nodup_cons] at hnd
    rw [List.foldl_cons]
    rcases List.mem_cons.mp hs with rfl | hs'
    · obtain ⟨q, hq, h1, h2⟩ := syncStep_content st s hinv
      refine ⟨q, ?_, h1, h2⟩
      rw [foldl_syncStep_frame rest (syncStep st s) s.id hinv1 hnd.1]
      exact hq
    · exact ih (syncStep st s0) hinv1 hnd.2 s hs'

theorem foldl_syncStep_noop (inc : List Quote) :
    ∀ st : SyncState, SyncInv st → (∀ s ∈ inc, ContentOK st.quotes s) →
      inc.foldl syncStep st = st := by
  induction inc with
  | nil => intro st _ _; rfl
  | cons s rest ih =>
    intro st hinv hok
    have h1 : syncStep st s = st := syncStep_noop st s hinv (hok s (by simp))
    rw [List.foldl_cons, h1]
    exact ih st hinv fun x hx => hok x (List.mem_cons_of_mem s hx)

theorem findById_getElem (qs : List Quote) (hn : (qs.map Quote.id).Nodup) :
    ∀ (i : Nat) (q0 : Quote), qs[i]? = some q0 →
      findById qs q0.id = some q0 ∧ (qs.findIdx fun q => q.id == q0.id) = i := by
  induction qs with
  | nil => intro i q0 h; simp at h
  | cons h0 tl ih =>
    rw [List.map_cons, List.nodup_cons] at hn
    intro i q0 h
    cases i with
    | zero =>
      simp at h
      subst h
      refine ⟨by rw [findById_cons]; simp, ?_⟩
      simp [List.findIdx_cons]
    | succ n =>
      simp at h
      have hmem : q0 ∈ tl := List.getElem?_mem h
      have hne : h0.id ≠ q0.id := by
        intro e
        exact hn.1 (e ▸ List.mem_map.mpr ⟨q0, hmem, rfl⟩)
      obtain ⟨f1, f2⟩ := ih hn.2 n q0 h
      refine ⟨by rw [findById_cons]; simp [hne, f1], ?_⟩
      have hp : (h0.id == q0.id) = false := by simp [hne]
      simp [List.findIdx_cons, hp, f2]

/-- Claim C3: the import merge is strictly additive — the merged
collection extends the existing one (every existing record is unchanged
and keeps its position), and its size is the existing size plus the
added count. -/
theorem claim_import_additive (existing incoming : List Quote) :
    (∃ t, (importMerge existing incoming).1 = existing ++ t) ∧
    (importMerge existing incoming).1.length
      = existing.length + (importMerge existing incoming).2.1 :=
  importMergeAux_additive incoming existing (existing.map Quote.id)

/-- Claim C7: importing a record whose `(text, category)` pair already
occurs in the existing collection — in particular one with a fresh id —
skips it: the collection does not grow and the skipped count is 1. -/
theorem claim_import_content_dedup (existing : List Quote) (q : Quote)
    (_hid : q.id ∉ existing.map Quote.id)
    (hpair : ∃ x ∈ existing, x.text = q.text ∧ x.category = q.category) :
    importMerge existing [q] = (existing, 0, 1) := by
  have hc : q.id ∈ existing.map Quote.id ∨
      ∃ x ∈ existing, x.text = q.text ∧ x.category = q.category := Or.inr hpair
  simp [importMerge, importMergeAux, if_pos hc]
  exact fun _ => hpair

/-- Witness for claim C7 at a concrete input. -/
theorem claim_import_content_dedup_witness :
    importMerge [⟨"a", "T", "c", "seed", 1, 0⟩] [⟨"b", "T", "c", "import", 1, 0⟩]
      = ([⟨"a", "T", "c", "seed", 1, 0⟩], 0, 1) :=
  claim_import_content_dedup [⟨"a", "T", "c", "seed", 1, 0⟩] ⟨"b", "T", "c", "import", 1, 0⟩
    (by decide) (by decide)

/-- Claim C10: when the durable store is missing, unparseable, holds a
non-array, or holds an empty array, initial load installs the four-record
seed set; consequently the collection right after initial load is
non-empty for every durable-store content. -/
theorem claim_startup_nonempty (now : Nat) :
    loadInitialData now .missing = SEED_QUOTES now ∧
    loadInitialData now .malformed = SEED_QUOTES now ∧
    loadInitialData now .nonArray = SEED_QUOTES now ∧
    loadInitialData now (.array []) = SEED_QUOTES now ∧
    ∀ sc, 0 < (loadInitialData now sc).length := by
  refine ⟨rfl, rfl, rfl, rfl, ?_⟩
  intro sc
  cases sc with
  | array items =>
    cases items <;> simp [loadInitialData, readLocalQuotes, SEED_QUOTES]
  | missing => simp [loadInitialData, readLocalQuotes, SEED_QUOTES]
  | malformed => simp [loadInitialData, readLocalQuotes, SEED_QUOTES]
  | nonArray => simp [loadInitialData, readLocalQuotes, SEED_QUOTES]

/-- Claim C6 counterexample: a zero-change import still performs the
durable write.  Importing the export of the current one-record collection
changes nothing (added = 0, the collection is unchanged), yet
`importFromJsonFile` emits the write effect, contradicting the claim that
a zero-change merge skips the write. -/
theorem claim_zero_change_write_cex :
    (importFromJsonFile [⟨"a", "T", "c", "local", 1, 0⟩] (fun _ => "g") (fun _ => 0)
        (some (exportRecords [⟨"a", "T", "c", "local", 1, 0⟩]))).1
      = [⟨"a", "T", "c", "local", 1, 0⟩] ∧
    (importMerge [⟨"a", "T", "c", "local", 1, 0⟩]
        (normalizeImported (fun _ => "g") (fun _ => 0)
          (exportRecords [⟨"a", "T", "c", "local", 1, 0⟩]))).2.1 = 0 ∧
    Effect.write ∈ (importFromJsonFile [⟨"a", "T", "c", "local", 1, 0⟩] (fun _ => "g")
        (fun _ => 0) (some (exportRecords [⟨"a", "T", "c", "local", 1, 0⟩]))).2 := by
  refine ⟨by decide, by decide, ?_⟩
  simp [importFromJsonFile]

/-- Claim C6 as amended: `syncWithServer` performs the durable write and
category refresh exactly when the merge produced a non-zero added or
replaced count, while `importFromJsonFile` performs them unconditionally
on every successfully parsed array — even when the merge changed
nothing. -/
theorem claim_write_effects_amended (qs inc : List Quote) (g : Nat → String)
    (gt : Nat → Nat) (arr : List (Option RawItem)) :
    (Effect.write ∈ (syncWithServer qs inc).2 ↔
      ((mergeServerQuotes qs inc).2.1 ≠ 0 ∨ (mergeServerQuotes qs inc).2.2 ≠ 0)) ∧
    Effect.write ∈ (importFromJsonFile qs g gt (some arr)).2 := by
  constructor
  · unfold syncWithServer
    by_cases h : (mergeServerQuotes qs inc).2.1 ≠ 0 ∨ (mergeServerQuotes qs inc).2.2 ≠ 0
    · simp [if_pos h, h]
    · simp [if_neg h, h]
  · simp [importFromJsonFile]

/-- Claim C2 counterexample: the normalizer does not guarantee non-empty
text after trimming.  The input element with text `"   "` (whitespace
only) and category `"x"` passes the `typeof` filter, normalizes to a
record with empty text, and the import merge then inserts that record
into an empty collection — it is not dropped. -/
theorem claim_normalizer_cex :
    normalizeImported (fun _ => "gen") (fun _ => 0)
        [some ⟨none, some "   ", some "x", none, none, none⟩]
      = [⟨"gen", "", "x", "import", 1, 0⟩] ∧
    (importMerge [] [⟨"gen", "", "x", "import", 1, 0⟩]).1
      = [⟨"gen", "", "x", "import", 1, 0⟩] := by decide

/-- Claim C2 as amended: every record the normalizer outputs stems from
an input element that is a record with string `text` and string
`category`, and carries that element's text trimmed and its category
trimmed and lowercased (both possibly empty — emptiness is not checked);
an element that is not a record, or whose `text` or `category` is not a
string, is dropped. -/
theorem claim_normalizer_amended (g : Nat → String) (gt : Nat → Nat)
    (arr : List (Option RawItem)) :
    (∀ q ∈ normalizeImported g gt arr, ∃ x ∈ arr, ∃ r t c,
        x = some r ∧ r.text = some t ∧ r.category = some c ∧
        q.text = jsTrim t ∧ q.category = jsToLowerCase (jsTrim c)) ∧
    (∀ i, normItem (g i) (gt i) none = none) ∧
    (∀ i r, r.text = none ∨ r.category = none →
      normItem (g i) (gt i) (some r) = none) := by
  refine ⟨?_, fun i => rfl, ?_⟩
  · intro q hq
    simp only [normalizeImported, List.mem_filterMap] at hq
    obtain ⟨⟨i, x⟩, hmem, hnorm⟩ := hq
    have hx : x ∈ arr := List.snd_mem_of_mem_enum hmem
    cases x with
    | none => simp [normItem] at hnorm
    | some r =>
      cases ht : r.text with
      | none => simp [normItem, ht] at hnorm
      | some t =>
        cases hc : r.category with
        | none => simp [normItem, ht, hc] at hnorm
        | some c =>
          simp only [normItem, ht, hc, Option.some.injEq] at hnorm
          refine ⟨some r, hx, r, t, c, rfl, ht, hc, ?_, ?_⟩
          · rw [← hnorm]
          · rw [← hnorm]
  · intro i r hr
    rcases hr with h | h <;> simp [normItem, h]

/-- Witness for the amended claim C2 at a concrete input. -/
theorem claim_normalizer_amended_witness :
    ∃ x ∈ [some (⟨none, some " Hi ", some "Wisdom", none, none, none⟩ : RawItem)],
      ∃ r t c, x = some r ∧ r.text = some t ∧ r.category = some c ∧
        (Quote.mk "gen" "Hi" "wisdom" "import" 1 0).text = jsTrim t ∧
        (Quote.mk "gen" "Hi" "wisdom" "import" 1 0).category = jsToLowerCase (jsTrim c) :=
  (claim_normalizer_amended (fun _ => "gen") (fun _ => 0)
      [some ⟨none, some " Hi ", some "Wisdom", none, none, none⟩]).1
    ⟨"gen", "Hi", "wisdom", "import", 1, 0⟩ (by decide)

example :
    normalizeImported (fun _ => "gen") (fun _ => 0)
        [some ⟨none, some " Hi ", some "Wisdom", none, none, none⟩]
      = [⟨"gen", "Hi", "wisdom", "import", 1, 0⟩] := by decide

theorem mergeServerQuotes_eq (existing incoming : List Quote) :
    mergeServerQuotes existing incoming
      = ((incoming.foldl syncStep ⟨existing, buildById existing, 0, 0⟩).quotes,
         (incoming.foldl syncStep ⟨existing, buildById existing, 0, 0⟩).added,
         (incoming.foldl syncStep ⟨existing, buildById existing, 0, 0⟩).replaced) := rfl

/-- Claim C4: sync conflict resolution is server-wins in place — when the
incoming record's id matches the record stored at position `i` of a
collection with distinct ids, a difference in text or category overwrites
that position with the incoming record (counted as replaced), and
identical content leaves the collection unchanged with both counters
zero. -/
theorem claim_sync_server_wins (qs : List Quote) (s q0 : Quote) (i : Nat)
    (hn : (qs.map Quote.id).Nodup) (hi : qs[i]? = some q0) (hid : q0.id = s.id) :
    ((q0.text ≠ s.text ∨ q0.category ≠ s.category) →
        mergeServerQuotes qs [s] = (qs.set i s, 0, 1)) ∧
    (q0.text = s.text ∧ q0.category = s.category →
        mergeServerQuotes qs [s] = (qs, 0, 0)) := by
  obtain ⟨hf, hix⟩ := findById_getElem qs hn i q0 hi
  rw [hid] at hf hix
  have hb : buildById qs s.id = some q0 := (buildById_eq_findById qs hn s.id).trans hf
  constructor
  · intro hdiff
    simp [mergeServerQuotes, syncStep, hb, if_pos hdiff, hix]
  · intro heq
    have hnd : ¬(q0.text ≠ s.text ∨ q0.category ≠ s.category) := by
      simp [heq.1, heq.2]
    simp [mergeServerQuotes, syncStep, hb, if_neg hnd]

/-- Witness for claim C4 at the spec's own example: local
`{id:"server-1", text:"A"}`, incoming `{id:"server-1", text:"B"}`. -/
theorem claim_sync_server_wins_witness :
    mergeServerQuotes [⟨"server-1", "A", "server", "server", 1, 0⟩]
        [⟨"server-1", "B", "server", "server", 1, 5⟩]
      = ([⟨"server-1", "B", "server", "server", 1, 5⟩], 0, 1) :=
  (claim_sync_server_wins [⟨"server-1", "A", "server", "server", 1, 0⟩]
      ⟨"server-1", "B", "server", "server", 1, 5⟩
      ⟨"server-1", "A", "server", "server", 1, 0⟩ 0
      (by decide) (by decide) (by decide)).1 (by decide)

/-- Claim C5 counterexample: sync is not idempotent for an arbitrary
incoming sequence.  With incoming records that share the id `"a"` but
differ in text, the second application of the merge to its own result
reports two replacements instead of zero. -/
theorem claim_sync_idempotent_cex :
    (mergeServerQuotes
        (mergeServerQuotes []
          [⟨"a", "X", "c", "server", 1, 0⟩, ⟨"a", "Y", "c", "server", 1, 0⟩]).1
        [⟨"a", "X", "c", "server", 1, 0⟩, ⟨"a", "Y", "c", "server", 1, 0⟩]).2.2 = 2 ∧
    ¬(mergeServerQuotes
        (mergeServerQuotes []
          [⟨"a", "X", "c", "server", 1, 0⟩, ⟨"a", "Y", "c", "server", 1, 0⟩]).1
        [⟨"a", "X", "c", "server", 1, 0⟩, ⟨"a", "Y", "c", "server", 1, 0⟩]
      = ((mergeServerQuotes []
            [⟨"a", "X", "c", "server", 1, 0⟩, ⟨"a", "Y", "c", "server", 1, 0⟩]).1,
         0, 0)) := by decide

/-- Claim C5 as amended: for a collection with pairwise-distinct ids and
an incoming sequence with pairwise-distinct ids (as the server feed
produces), applying the sync merge a second time with the same incoming
sequence adds nothing, replaces nothing, and leaves the collection
unchanged. -/
theorem claim_sync_idempotent_amended (existing incoming : List Quote)
    (hex : (existing.map Quote.id).Nodup)
    (hin : (incoming.map Quote.id).Nodup) :
    mergeServerQuotes (mergeServerQuotes existing incoming).1 incoming
      = ((mergeServerQuotes existing incoming).1, 0, 0) := by
  have hinv0 : SyncInv ⟨existing, buildById existing, 0, 0⟩ :=
    ⟨hex, fun k => buildById_eq_findById existing hex k⟩
  have hinvf := foldl_syncStep_inv incoming ⟨existing, buildById existing, 0, 0⟩ hinv0
  have hpost := foldl_syncStep_post incoming ⟨existing, buildById existing, 0, 0⟩ hinv0 hin
  have hnd : (((incoming.foldl syncStep
      ⟨existing, buildById existing, 0, 0⟩).quotes).map Quote.id).Nodup := hinvf.1
  have hminv : SyncInv ⟨(incoming.foldl syncStep ⟨existing, buildById existing, 0, 0⟩).quotes,
      buildById (incoming.foldl syncStep ⟨existing, buildById existing, 0, 0⟩).quotes, 0, 0⟩ :=
    ⟨hnd, fun k => buildById_eq_findById _ hnd k⟩
  have hrun := foldl_syncStep_noop incoming _ hminv hpost
  rw [mergeServerQuotes_eq existing incoming]
  rw [mergeServerQuotes_eq]
  simp only [hrun]

theorem syncStep_length (st : SyncState) (s : Quote) :
    (syncStep st s).quotes.length + st.added
      = st.quotes.length + (syncStep st s).added := by
  cases hb : st.byId s.id with
  | none =>
    simp [syncStep, hb]
    omega
  | some l =>
    by_cases hd : l.text ≠ s.text ∨ l.category ≠ s.category
    · simp [syncStep, hb, if_pos hd]
    · simp [syncStep, hb, if_neg hd]

theorem syncStep_length_le (st : SyncState) (s : Quote) :
    st.quotes.length ≤ (syncStep st s).quotes.length := by
  cases hb : st.byId s.id with
  | none => simp [syncStep, hb]
  | some l =>
    by_cases hd : l.text ≠ s.text ∨ l.category ≠ s.category
    · simp [syncStep, hb, if_pos hd]
    · simp [syncStep, hb, if_neg hd]

theorem findIdx_found (p : Quote → Bool) :
    ∀ (l : List Quote) (i : Nat), l.findIdx p = i →
      ∀ q : Quote, l[i]? = some q → p q = true := by
  intro l
  induction l with
  | nil => intro i _ q hq; simp at hq
  | cons a tl ih =>
    intro i hidx q hq
    by_cases hp : p a
    · have h0 : i = 0 := by
        rw [List.findIdx_cons, hp] at hidx
        simpa using hidx.symm
      subst h0
      simp at hq
      subst hq
      exact hp
    · have hp' : p a = false := by simpa using hp
      rw [List.findIdx_cons, hp'] at hidx
      simp at hidx
      cases i with
      | zero => simp at hidx
      | succ n =>
        simp at hq
        exact ih n (by omega) q hq

theorem syncStep_pos_frame (st : SyncState) (s : Quote) (i : Nat) (q : Quote)
    (hq : st.quotes[i]? = some q) (hne : q.id ≠ s.id) :
    (syncStep st s).quotes[i]? = st.quotes[i]? := by
  have hi : i < st.quotes.length := (List.getElem?_eq_some_iff.mp hq).1
  cases hb : st.byId s.id with
  | none =>
    simp only [syncStep, hb]
    exact List.getElem?_append_left hi
  | some l =>
    by_cases hd : l.text ≠ s.text ∨ l.category ≠ s.category
    · simp only [syncStep, hb, if_pos hd]
      by_cases hj : (st.quotes.findIdx fun q => q.id == s.id) = i
      · have hpred := findIdx_found (fun q => q.id == s.id) st.quotes i hj q hq
        exact absurd (by simpa using hpred) hne
      · exact List.getElem?_set_ne hj
    · simp only [syncStep, hb, if_neg hd]

theorem foldl_syncStep_length (inc : List Quote) :
    ∀ st : SyncState, (inc.foldl syncStep st).quotes.length + st.added
      = st.quotes.length + (inc.foldl syncStep st).added := by
  induction inc with
  | nil => intro st; rfl
  | cons s rest ih =>
    intro st
    have h1 := syncStep_length st s
    have h2 := ih (syncStep st s)
    rw [List.foldl_cons]
    omega

theorem foldl_syncStep_pos (inc : List Quote) :
    ∀ (st : SyncState) (i : Nat) (q : Quote), st.quotes[i]? = some q →
      q.id ∉ inc.map Quote.id →
      (inc.foldl syncStep st).quotes[i]? = st.quotes[i]? := by
  induction inc with
  | nil => intro st i q _ _; rfl
  | cons s rest ih =>
    intro st i q hq h
    rw [List.map_cons, List.mem_cons, not_or] at h
    have hstep := syncStep_pos_frame st s i q hq h.1
    have hq' : (syncStep st s).quotes[i]? = some q := hstep.trans hq
    rw [List.foldl_cons]
    rw [ih (syncStep st s) i q hq' h.2]
    exact hstep

/-- Claim C9: the sync merge never removes records — the merged size is
the existing size plus the added count — and every existing record whose
id does not occur in the incoming sequence is unchanged at its original
position. -/
theorem claim_sync_frame (qs inc : List Quote) :
    ((mergeServerQuotes qs inc).1.length = qs.length + (mergeServerQuotes qs inc).2.1) ∧
    ∀ (i : Nat) (q : Quote), qs[i]? = some q → q.id ∉ inc.map Quote.id →
      (mergeServerQuotes qs inc).1[i]? = some q := by
  rw [mergeServerQuotes_eq]
  constructor
  · have h := foldl_syncStep_length inc ⟨qs, buildById qs, 0, 0⟩
    simpa using h
  · intro i q hq h
    have hp := foldl_syncStep_pos inc ⟨qs, buildById qs, 0, 0⟩ i q hq h
    exact hp.trans hq

/-- Witness for claim C9 at a concrete input. -/
theorem claim_sync_frame_witness :
    (mergeServerQuotes [⟨"a", "T", "c", "seed", 1, 0⟩]
        [⟨"b", "U", "d", "server", 1, 0⟩]).1[0]?
      = some ⟨"a", "T", "c", "seed", 1, 0⟩ :=
  (claim_sync_frame [⟨"a", "T", "c", "seed", 1, 0⟩]
      [⟨"b", "U", "d", "server", 1, 0⟩]).2 0 ⟨"a", "T", "c", "seed", 1, 0⟩
    (by decide) (by decide)

theorem importMergeAux_nodup (inc : List Quote) :
    ∀ (qs : List Quote) (seen : List String),
      (∀ x ∈ qs, x.id ∈ seen) → (qs.map Quote.id).Nodup →
      ((importMergeAux qs seen inc).1.map Quote.id).Nodup := by
  induction inc with
  | nil => intro qs seen _ h; simpa [importMergeAux] using h
  | cons q rest ih =>
    intro qs seen hsub hnd
    by_cases h : q.id ∈ seen ∨ ∃ x ∈ qs, x.text = q.text ∧ x.category = q.category
    · simp only [importMergeAux, if_pos h]
      exact ih qs seen hsub hnd
    · have hq : q.id ∉ seen := fun hc => h (Or.inl hc)
      simp only [importMergeAux, if_neg h]
      apply ih (qs ++ [q]) (q.id :: seen)
      · intro x hx
        rcases List.mem_append.mp hx with hx' | hx'
        · exact List.mem_cons_of_mem _ (hsub x hx')
        · simp at hx'
          subst hx'
          exact List.mem_cons_self _ _
      · rw [List.map_append, List.nodup_append]
        refine ⟨hnd, by simp, ?_⟩
        intro a ha ha'
        simp at ha'
        subst ha'
        obtain ⟨x, hx, he⟩ := List.mem_map.mp ha
        exact hq (he ▸ hsub x hx)

/-- Claim C1: starting from a collection with pairwise-distinct ids,
any sequence of add, import-merge, and sync-merge operations — with the
add-path id generator meeting its freshness contract — yields a
collection with pairwise-distinct ids. -/
theorem claim_identity_uniqueness (ops : List Op) :
    ∀ qs : List Quote, (qs.map Quote.id).Nodup → FreshAdds qs ops →
      ((ops.foldl applyOp qs).map Quote.id).Nodup := by
  induction ops with
  | nil => intro qs h _; exact h
  | cons op rest ih =>
    intro qs h hf
    obtain ⟨hop, hrest⟩ := hf
    rw [List.foldl_cons]
    refine ih (applyOp qs op) ?_ hrest
    cases op with
    | addOp t c g n =>
      by_cases hcond : jsTrim t = "" ∨ jsToLowerCase (jsTrim c) = ""
      · simpa [applyOp, addQuote, hcond] using h
      · have hg : g ∉ qs.map Quote.id := hop
        simp only [applyOp, addQuote, if_neg hcond]
        rw [List.map_append, List.nodup_append]
        refine ⟨h, by simp, ?_⟩
        intro a ha ha'
        simp at ha'
        subst ha'
        exact hg ha
    | importOp gi gt arr =>
      exact importMergeAux_nodup (normalizeImported gi gt arr) qs (qs.map Quote.id)
        (fun x hx => List.mem_map.mpr ⟨x, hx, rfl⟩) h
    | syncOp inc =>
      have hinv : SyncInv ⟨qs, buildById qs, 0, 0⟩ :=
        ⟨h, fun k => buildById_eq_findById qs h k⟩
      exact (foldl_syncStep_inv inc _ hinv).1

/-- Witness for claim C1 on a concrete three-operation run (one add, one
import, one sync) from the empty collection. -/
theorem claim_identity_uniqueness_witness :
    ((([Op.addOp "hello" "Tag" "local-1" 5,
        Op.importOp (fun _ => "gen") (fun _ => 7)
          [some ⟨some "imp-1", some " a ", some "B", none, none, none⟩],
        Op.syncOp [⟨"server-1", "t", "server", "server", 1, 9⟩]].foldl
          applyOp []).map Quote.id)).Nodup :=
  claim_identity_uniqueness _ [] (by decide) ⟨by decide, trivial, trivial, trivial⟩

theorem normItem_export (genId : String) (genTs : Nat) (q : Quote)
    (hid : q.id ≠ "") (htext : jsTrim q.text = q.text)
    (hcat : jsToLowerCase (jsTrim q.category) = q.category) :
    normItem genId genTs (some ⟨some q.id, some q.text, some q.category,
        some q.source, some q.version, some q.lastUpdated⟩)
      = some ⟨q.id, q.text, q.category,
          if q.source = "" then "import" else q.source, q.version, q.lastUpdated⟩ := by
  simp [normItem, hid, htext, hcat]

theorem enumFrom_normItem_export (g : Nat → String) (gt : Nat → Nat) :
    ∀ (qs : List Quote) (n : Nat),
      (∀ q ∈ qs, q.id ≠ "" ∧ jsTrim q.text = q.text ∧
        jsToLowerCase (jsTrim q.category) = q.category) →
      ((exportRecords qs).enumFrom n).filterMap
          (fun p => normItem (g p.1) (gt p.1) p.2)
        = qs.map fun q => ⟨q.id, q.text, q.category,
            if q.source = "" then "import" else q.source, q.version, q.lastUpdated⟩ := by
  intro qs
  induction qs with
  | nil => intro n _; rfl
  | cons q rest ih =>
    intro n hfix
    have hq := hfix q (by simp)
    simp only [exportRecords, List.map_cons, List.enumFrom, List.filterMap_cons]
    rw [normItem_export (g n) (gt n) q hq.1 hq.2.1 hq.2.2]
    simp only [List.map_cons]
    have := ih (n + 1) fun p hp => hfix p (List.mem_cons_of_mem _ hp)
    simp only [exportRecords] at this
    rw [this]

theorem normalizeImported_export (g : Nat → String) (gt : Nat → Nat) (qs : List Quote)
    (hfix : ∀ q ∈ qs, q.id ≠ "" ∧ jsTrim q.text = q.text ∧
      jsToLowerCase (jsTrim q.category) = q.category) :
    normalizeImported g gt (exportRecords qs)
      = qs.map fun q => ⟨q.id, q.text, q.category,
          if q.source = "" then "import" else q.source, q.version, q.lastUpdated⟩ :=
  enumFrom_normItem_export g gt qs 0 hfix

theorem importMergeAux_all_new (inc : List Quote) :
    ∀ (qs : List Quote) (seen : List String),
      (∀ q ∈ inc, q.id ∉ seen) →
      (∀ q ∈ inc, ∀ x ∈ qs, ¬(x.text = q.text ∧ x.category = q.category)) →
      (inc.map Quote.id).Nodup →
      (inc.map fun q => (q.text, q.category)).Nodup →
      importMergeAux qs seen inc = (qs ++ inc, inc.length, 0) := by
  induction inc with
  | nil => intro qs seen _ _ _ _; simp [importMergeAux]
  | cons q rest ih =>
    intro qs seen hid hpair hnd hndp
    rw [List.map_cons, List.nodup_cons] at hnd hndp
    have hcond : ¬(q.id ∈ seen ∨ ∃ x ∈ qs, x.text = q.text ∧ x.category = q.category) := by
      rintro (hc | ⟨x, hx, hp⟩)
      · exact hid q (by simp) hc
      · exact hpair q (by simp) x hx hp
    have h1 : ∀ p ∈ rest, p.id ∉ q.id :: seen := by
      intro p hp hmem
      rcases List.mem_cons.mp hmem with he | hseen
      · exact hnd.1 (he ▸ List.mem_map.mpr ⟨p, hp, rfl⟩)
      · exact hid p (List.mem_cons_of_mem _ hp) hseen
    have h2 : ∀ p ∈ rest, ∀ x ∈ qs ++ [q],
        ¬(x.text = p.text ∧ x.category = p.category) := by
      intro p hp x hx hcontra
      rcases List.mem_append.mp hx with hx' | hx'
      · exact hpair p (List.mem_cons_of_mem _ hp) x hx' hcontra
      · have he : x = q := by simpa using hx'
        subst he
        exact hndp.1
          (List.mem_map.mpr ⟨p, hp, by simp [hcontra.1, hcontra.2]⟩)
    simp only [importMergeAux, if_neg hcond]
    rw [ih (qs ++ [q]) (q.id :: seen) h1 h2 hnd.2 hndp.2]
    simp

/-- Claim C8 counterexample: the export/import round trip is not the
identity on record sets.  A collection holding two records that share
`(text, category)` but have different ids — a state the sync merge can
produce — loses the second record when its export is re-imported into an
empty collection, because import de-duplicates by content. -/
theorem claim_round_trip_cex :
    (importMerge [] (normalizeImported (fun _ => "gen") (fun _ => 0)
        (exportRecords [⟨"a", "T", "c", "local", 1, 0⟩,
          ⟨"b", "T", "c", "server", 1, 0⟩]))).1
      = [⟨"a", "T", "c", "local", 1, 0⟩] ∧
    ("b", "T", "c") ∈ ([⟨"a", "T", "c", "local", 1, 0⟩,
        ⟨"b", "T", "c", "server", 1, 0⟩] : List Quote).map
        (fun q => (q.id, q.text, q.category)) ∧
    ("b", "T", "c") ∉ (importMerge [] (normalizeImported (fun _ => "gen") (fun _ => 0)
        (exportRecords [⟨"a", "T", "c", "local", 1, 0⟩,
          ⟨"b", "T", "c", "server", 1, 0⟩]))).1.map
        (fun q => (q.id, q.text, q.category)) := by decide

/-- Claim C8 as amended: for a collection of normalized records —
non-empty ids, trim-fixed text, trim-and-lowercase-fixed category — with
pairwise-distinct ids and pairwise-distinct `(text, category)` pairs,
exporting and re-importing into an empty collection reproduces exactly
the same records by `(id, text, category)`. -/
theorem claim_round_trip_amended (g : Nat → String) (gt : Nat → Nat) (qs : List Quote)
    (hfix : ∀ q ∈ qs, q.id ≠ "" ∧ jsTrim q.text = q.text ∧
      jsToLowerCase (jsTrim q.category) = q.category)
    (hids : (qs.map Quote.id).Nodup)
    (hpairs : (qs.map fun q => (q.text, q.category)).Nodup) :
    (importMerge [] (normalizeImported g gt (exportRecords qs))).1.map
        (fun q => (q.id, q.text, q.category))
      = qs.map fun q => (q.id, q.text, q.category) := by
  rw [importMerge, normalizeImported_export g gt qs hfix]
  have hids' : (((qs.map fun q => (⟨q.id, q.text, q.category,
      if q.source = "" then "import" else q.source, q.version,
      q.lastUpdated⟩ : Quote)).map Quote.id)).Nodup := by
    rw [List.map_map]
    exact hids
  have hpairs' : (((qs.map fun q => (⟨q.id, q.text, q.category,
      if q.source = "" then "import" else q.source, q.version,
      q.lastUpdated⟩ : Quote)).map fun q => (q.text, q.category))).Nodup := by
    rw [List.map_map]
    exact hpairs
  rw [importMergeAux_all_new _ [] _ (by simp) (by simp) hids' hpairs']
  simp [List.map_map]

/-- Witness for the amended claim C8 at a concrete one-record
collection. -/
theorem claim_round_trip_amended_witness :
    (importMerge [] (normalizeImported (fun _ => "g") (fun _ => 0)
        (exportRecords [⟨"a", "Hi", "wisdom", "local", 1, 3⟩]))).1.map
        (fun q => (q.id, q.text, q.category))
      = [("a", "Hi", "wisdom")] :=
  claim_round_trip_amended (fun _ => "g") (fun _ => 0)
    [⟨"a", "Hi", "wisdom", "local", 1, 3⟩] (by decide) (by decide) (by decide)

/-- Witness for the amended claim C5 at a concrete input. -/
theorem claim_sync_idempotent_amended_witness :
    mergeServerQuotes
        (mergeServerQuotes [⟨"l1", "T", "c", "local", 1, 0⟩]
          [⟨"server-1", "t", "server", "server", 1, 2⟩]).1
        [⟨"server-1", "t", "server", "server", 1, 2⟩]
      = ((mergeServerQuotes [⟨"l1", "T", "c", "local", 1, 0⟩]
          [⟨"server-1", "t", "server", "server", 1, 2⟩]).1, 0, 0) :=
  claim_sync_idempotent_amended [⟨"l1", "T", "c", "local", 1, 0⟩]
    [⟨"server-1", "t", "server", "server", 1, 2⟩] (by decide) (by decide)
